import Mathlib

/-!
Composite / Visitor (visitor3.cpp)

The heap of `Component` objects is a list; a `Component*` is an index into it.
`traverse` writes integers to `cout`; the embedding returns the integers written
together with a status saying whether the call returned.
-/

namespace Visitor3

/-- Objects of the class hierarchy `Component` / `Primitive` / `Composite`.
`Component` itself is abstract (`accept` is pure virtual), so every object is
one of the two concrete classes.  `value` is the private member of the base
class, `children` the `vector<Component*>` of `Composite`. -/
inductive Component where
  | Primitive (value : Int)
  | Composite (value : Int) (children : List Nat)
  deriving DecidableEq, Repr

/-- The member `value` of the base class. -/
def Component.value : Component → Int
  | .Primitive v => v
  | .Composite v _ => v

/-- The heap: the object at address `p` is `s[p]?`. -/
abbrev Store := List Component

/-- Whether a call returned, ran out of recursion budget, or dereferenced an
address at which there is no object. -/
inductive Status where
  | done
  | outOfFuel
  | fault
  deriving DecidableEq, Repr

/-- What a call of `traverse` wrote to `cout` and how it ended. -/
structure Run where
  out : List Int
  status : Status
  deriving DecidableEq, Repr

/-- Sequencing of two pieces of output-producing code: the second one runs only
when the first one returned. -/
def Run.andThen (r₁ r₂ : Run) : Run :=
  match r₁.status with
  | .done => ⟨r₁.out ++ r₂.out, r₂.status⟩
  | _ => r₁

/-- The method `Component::traverse`: `cout << value << " "`. -/
def Component.traverse (value : Int) : Run := ⟨[value], .done⟩

/-- The loop `for (i = 0; i < children.size(); i++) children[i]->traverse();`
where `call` is the virtual call `->traverse()`. -/
def forChildren (call : Nat → Run) : List Nat → Run
  | [] => ⟨[], .done⟩
  | c :: cs => (call c).andThen (forChildren call cs)

/-- The override `Composite::traverse`: `Component::traverse()` and then the loop over the
children. -/
def Composite.traverse (call : Nat → Run) (value : Int) (children : List Nat) : Run :=
  (Component.traverse value).andThen (forChildren call children)

/-- The virtual call `p->traverse()` on the heap `s`.  `Primitive` inherits
`Component::traverse`, `Composite` overrides it.  Each nested call uses one unit
of fuel, so `fuel` bounds the depth of the recursion. -/
def traverse : Nat → Store → Nat → Run
  | 0, _, _ => ⟨[], .outOfFuel⟩
  | fuel + 1, s, p =>
    match s[p]? with
    | none => ⟨[], .fault⟩
    | some (.Primitive v) => Component.traverse v
    | some (.Composite v cs) => Composite.traverse (fun c => traverse fuel s c) v cs

/-- The method `Composite::add`: `children.push_back(ele)` on the object at address `node`.
The receiver has static type `Composite*`; there is no result when the address
does not hold a `Composite`. -/
def Composite.add (s : Store) (node ele : Nat) : Option Store :=
  match s[node]? with
  | some (.Composite v cs) => some (s.set node (.Composite v (cs ++ [ele])))
  | _ => none

/-- The abstract class `Visitor`: one `visit` overload per concrete class. -/
structure Visitor where
  visitPrimitive : Store → Nat → Nat → Option Store
  visitComposite : Store → Nat → Nat → Option Store

/-- The class `AddVisitor`: the `Primitive` overload has an empty body, the `Composite`
overload calls `node->add(c)`. -/
def AddVisitor : Visitor where
  visitPrimitive := fun s _ _ => some s
  visitComposite := fun s node c => Composite.add s node c

/-- The override `Primitive::accept`: `v.visit(this, c)` with `this : Primitive*`. -/
def Primitive.accept (s : Store) (v : Visitor) (this c : Nat) : Option Store :=
  v.visitPrimitive s this c

/-- The override `Composite::accept`: `v.visit(this, c)` with `this : Composite*`. -/
def Composite.accept (s : Store) (v : Visitor) (this c : Nat) : Option Store :=
  v.visitComposite s this c

/-- The virtual call `receiver->accept(v, c)`: the override of the receiver's
dynamic class runs. -/
def accept (s : Store) (v : Visitor) (receiver c : Nat) : Option Store :=
  match s[receiver]? with
  | none => none
  | some (.Primitive _) => Primitive.accept s v receiver c
  | some (.Composite _ _) => Composite.accept s v receiver c

/-- Allocation `new Primitive(val)` / `new Composite(val)`: the new object goes
to the next free address, which is returned with the new heap. -/
def alloc (s : Store) (obj : Component) : Store × Nat := (s ++ [obj], s.length)

/-- The function `main`: the three lines it prints, one `traverse` each. -/
def main (fuel : Nat) : Option (List Run) := do
  let (s, n0) := alloc [] (.Composite 1 [])
  let (s, n1) := alloc s (.Composite 2 [])
  let (s, n2) := alloc s (.Composite 3 [])
  let nodes := [n0, n1, n2]
  let s ← accept s AddVisitor n0 n1
  let s ← accept s AddVisitor n0 n2
  let (s, p4) := alloc s (.Primitive 4)
  let s ← accept s AddVisitor n0 p4
  let (s, p5) := alloc s (.Primitive 5)
  let s ← accept s AddVisitor n1 p5
  let (s, p6) := alloc s (.Primitive 6)
  let s ← accept s AddVisitor n1 p6
  let (s, p7) := alloc s (.Primitive 7)
  let s ← accept s AddVisitor n2 p7
  pure (nodes.map (fun p => traverse fuel s p))

/-! ### Vocabulary for stating the properties -/

/-- The concrete class of an object is `Composite`. -/
def Component.isComposite : Component → Bool
  | .Primitive _ => false
  | .Composite _ _ => true

/-- The child relation of the heap: `c` occurs in the `children` vector of the
`Composite` at address `p`. -/
def Child (s : Store) (p c : Nat) : Prop :=
  ∃ v cs, s[p]? = some (.Composite v cs) ∧ c ∈ cs

/-- The object `q` is `p` itself or a descendant of `p`. -/
def Reach (s : Store) : Nat → Nat → Prop := Relation.ReflTransGen (Child s)

/-- No object is its own descendant. -/
def Acyclic (s : Store) : Prop := ∀ p, ¬ Relation.TransGen (Child s) p p

/-- Every stored child pointer is the address of an object. -/
def WellFormed (s : Store) : Prop := ∀ p c, Child s p c → c < s.length

/-- Heaps obtained from the empty heap by allocating fresh objects and by attach
calls (through `accept` with an `AddVisitor`, or `Composite::add` directly) whose
payload is an existing object that is neither the receiver nor an ancestor of
the receiver. -/
inductive Built : Store → Prop where
  | empty : Built []
  | newPrimitive (s : Store) (val : Int) : Built s → Built (alloc s (.Primitive val)).1
  | newComposite (s : Store) (val : Int) : Built s → Built (alloc s (.Composite val [])).1
  | accept (s t : Store) (receiver c : Nat) : Built s → c < s.length →
      ¬ Reach s c receiver → accept s AddVisitor receiver c = some t → Built t
  | add (s t : Store) (node ele : Nat) : Built s → ele < s.length →
      ¬ Reach s ele node → Composite.add s node ele = some t → Built t

/-- The calls a client can make on the heap. -/
inductive Call where
  | traverse (p : Nat)
  | accept (receiver c : Nat)
  | add (node ele : Nat)
  | newPrimitive (val : Int)
  | newComposite (val : Int)
  deriving DecidableEq, Repr

/-- The heap after one call that returned. -/
def Call.run (fuel : Nat) (s : Store) : Call → Option Store
  | .traverse p => if (Visitor3.traverse fuel s p).status = .done then some s else none
  | .accept receiver c => Visitor3.accept s AddVisitor receiver c
  | .add node ele => Composite.add s node ele
  | .newPrimitive val => some (alloc s (.Primitive val)).1
  | .newComposite val => some (alloc s (.Composite val [])).1

/-- The heap after a sequence of calls, all of which returned. -/
def runCalls (fuel : Nat) : Store → List Call → Option Store
  | s, [] => some s
  | s, c :: cs => (c.run fuel s).bind (fun t => runCalls fuel t cs)

/-- The list `x, y, x, y, ...` of length `n`. -/
def alternate : Nat → Int → Int → List Int
  | 0, _, _ => []
  | n + 1, x, y => x :: alternate n y x

/-- The number of nodes of the tree unfolded from the object at `p`, a node
counted once for every path that reaches it: 1 for a `Primitive` and for a
`Composite` without children, 1 plus the sum over the children for a
`Composite`.  `fuel` bounds the depth to which the tree is unfolded. -/
def unfoldedSize : Nat → Store → Nat → Nat
  | 0, _, _ => 0
  | fuel + 1, s, p =>
    match s[p]? with
    | none => 0
    | some (.Primitive _) => 1
    | some (.Composite _ cs) => 1 + (cs.map (fun c => unfoldedSize fuel s c)).sum

/-! ### The traversal as a transformer of the whole program state -/

/-- The state a method runs in: the heap of objects and what has been written to
`cout` so far. -/
structure World where
  heap : Store
  cout : List Int
  deriving DecidableEq, Repr

/-- The body of `Component::traverse` run on the object `this` in the state `w`:
`cout << value << " "` reads the member `value` of `this` and appends it to
`cout`.  The result is the state after the call and how the call ended. -/
def Component.traverseIn (w : World) (this : Nat) : World × Status :=
  match w.heap[this]? with
  | none => (w, .fault)
  | some x => ({ w with cout := w.cout ++ [x.value] }, .done)

/-- The loop `for (int i = 0; i < children.size(); i++) children[i]->traverse();`
of `Composite::traverse` from the index `i` on, in the state `w`.  Every test of
the loop condition reads the member `children` of `this` in the current state;
`call` is the virtual call `->traverse()`, and the next iteration runs in the
state that call left.  `k` bounds the number of tests of the loop condition. -/
def forChildrenIn (call : World → Nat → World × Status) (this : Nat) :
    Nat → Nat → World → World × Status
  | 0, _, w => (w, .outOfFuel)
  | k + 1, i, w =>
    match w.heap[this]? with
    | some (.Composite _ children) =>
      match children[i]? with
      | none => (w, .done)
      | some c =>
        let r := call w c
        match r.2 with
        | .done => forChildrenIn call this k (i + 1) r.1
        | _ => r
    | _ => (w, .fault)

/-- The body of `Composite::traverse` run on `this` in the state `w`:
`Component::traverse()`, then the loop over the children in the state this
left. -/
def Composite.traverseIn (call : World → Nat → World × Status) (k : Nat) (w : World)
    (this : Nat) : World × Status :=
  let r := Component.traverseIn w this
  match r.2 with
  | .done => forChildrenIn call this k 0 r.1
  | _ => r

/-- The virtual call `p->traverse()` in the state `w`, as a transformer of the
state: the override of the dynamic class of `p` runs.  `fuel` bounds the depth of
the recursion and `k` the number of tests of the condition of each loop. -/
def traverseIn (k : Nat) : Nat → World → Nat → World × Status
  | 0, w, _ => (w, .outOfFuel)
  | fuel + 1, w, p =>
    match w.heap[p]? with
    | none => (w, .fault)
    | some (.Primitive _) => Component.traverseIn w p
    | some (.Composite _ _) => Composite.traverseIn (fun u c => traverseIn k fuel u c) k w p

end Visitor3

/-!
Template method (template2.cpp)

`cout` is the list of the strings inserted into it so far, one entry for every
`cout << ...`.
-/

namespace Template2

/-- A derived class of `Base`, given by its overrides of the two pure virtual
placeholders `ph1` and `ph2`; each acts on `cout`. -/
structure Base where
  ph1 : List String → List String
  ph2 : List String → List String

/-- The step `Base::a`: `cout << "a  "`. -/
def Base.a (cout : List String) : List String := cout ++ ["a  "]

/-- The step `Base::c`: `cout << "c  "`. -/
def Base.c (cout : List String) : List String := cout ++ ["c  "]

/-- The step `Base::e`: `cout << "e  "`. -/
def Base.e (cout : List String) : List String := cout ++ ["e  "]

/-- The template method `Base::execute`: `a(); ph1(); c(); ph2(); e();`, the two
placeholders being virtual calls. -/
def Base.execute (self : Base) (cout : List String) : List String :=
  let cout := Base.a cout
  let cout := self.ph1 cout
  let cout := Base.c cout
  let cout := self.ph2 cout
  Base.e cout

/-- The class `One`: `ph1` writes `"b  "`, `ph2` writes `"d  "`. -/
def One : Base where
  ph1 := fun cout => cout ++ ["b  "]
  ph2 := fun cout => cout ++ ["d  "]

/-- The class `Two`: `ph1` writes `"2  "`, `ph2` writes `"4  "`. -/
def Two : Base where
  ph1 := fun cout => cout ++ ["2  "]
  ph2 := fun cout => cout ++ ["4  "]

/-- The loop of `main` over the array of objects, from index `i` on:
`array[i]->execute(); cout << '\n';`. -/
def mainLoop : List Base → List String → List String
  | [], cout => cout
  | obj :: rest, cout => mainLoop rest (obj.execute cout ++ ["\n"])

/-- The function `main`: the array holds a `One` and a `Two`; the result is what
was written to `cout`. -/
def main : List String := mainLoop [One, Two] []

end Template2

namespace Visitor3

/-! ### Basic facts -/

theorem add_eq_some (s : Store) (b p : Nat) (v : Int) (cs : List Nat)
    (hB : s[b]? = some (.Composite v cs)) :
    Composite.add s b p = some (s.set b (.Composite v (cs ++ [p]))) := by
  simp [Composite.add, hB]

theorem accept_composite (s : Store) (b p : Nat) (v : Int) (cs : List Nat)
    (hB : s[b]? = some (.Composite v cs)) :
    accept s AddVisitor b p = some (s.set b (.Composite v (cs ++ [p]))) := by
  simp [accept, hB, Composite.accept, AddVisitor, Composite.add]

theorem accept_primitive (s : Store) (l p : Nat) (v : Int)
    (hL : s[l]? = some (.Primitive v)) :
    accept s AddVisitor l p = some s := by
  simp [accept, hL, Primitive.accept, AddVisitor]

theorem lt_length_of_getElem? {s : Store} {b : Nat} {x : Component}
    (h : s[b]? = some x) : b < s.length := by
  rcases Nat.lt_or_ge b s.length with hlt | hge
  · exact hlt
  · rw [List.getElem?_eq_none hge] at h; cases h

theorem getElem?_set_self_of_some {s : Store} {b : Nat} {x y : Component}
    (h : s[b]? = some x) : (s.set b y)[b]? = some y := by
  have := lt_length_of_getElem? h
  simp [List.getElem?_set, this]

theorem getElem?_set_of_ne {s : Store} {b n : Nat} (y : Component) (h : n ≠ b) :
    (s.set b y)[n]? = s[n]? := by
  simp [List.getElem?_set, Ne.symm h]

/-! ### Sequencing and the loop over the children -/

theorem andThen_status_done_iff (r₁ r₂ : Run) :
    (r₁.andThen r₂).status = .done ↔ r₁.status = .done ∧ r₂.status = .done := by
  unfold Run.andThen
  cases h : r₁.status <;> simp [h]

theorem andThen_of_done (r₁ r₂ : Run) (h : r₁.status = .done) :
    r₁.andThen r₂ = ⟨r₁.out ++ r₂.out, r₂.status⟩ := by
  unfold Run.andThen
  simp [h]

theorem andThen_of_not_done (r₁ r₂ : Run) (h : r₁.status ≠ .done) :
    r₁.andThen r₂ = r₁ := by
  unfold Run.andThen
  cases h' : r₁.status <;> simp_all

theorem forChildren_done_iff (call : Nat → Run) (cs : List Nat) :
    (forChildren call cs).status = .done ↔ ∀ c ∈ cs, (call c).status = .done := by
  induction cs with
  | nil => simp [forChildren]
  | cons c cs ih => simp [forChildren, andThen_status_done_iff, ih]

theorem forChildren_out_of_done (call : Nat → Run) (cs : List Nat)
    (h : ∀ c ∈ cs, (call c).status = .done) :
    (forChildren call cs).out = (cs.map (fun c => (call c).out)).flatten := by
  induction cs with
  | nil => simp [forChildren]
  | cons c cs ih =>
    have hc : (call c).status = .done := h c (by simp)
    have hcs : ∀ d ∈ cs, (call d).status = .done := fun d hd => h d (by simp [hd])
    simp [forChildren, andThen_of_done _ _ hc, ih hcs]

theorem forChildren_congr (call call' : Nat → Run) (cs : List Nat)
    (h : ∀ c ∈ cs, call c = call' c) :
    forChildren call cs = forChildren call' cs := by
  induction cs with
  | nil => simp [forChildren]
  | cons c cs ih =>
    have hc : call c = call' c := h c (by simp)
    have hcs : ∀ d ∈ cs, call d = call' d := fun d hd => h d (by simp [hd])
    simp [forChildren, hc, ih hcs]

theorem andThen_assoc (r₁ r₂ r₃ : Run) :
    (r₁.andThen r₂).andThen r₃ = r₁.andThen (r₂.andThen r₃) := by
  obtain ⟨o₁, st₁⟩ := r₁
  obtain ⟨o₂, st₂⟩ := r₂
  cases st₁ <;> cases st₂ <;> simp [Run.andThen]

theorem forChildren_append (call : Nat → Run) (cs ds : List Nat) :
    forChildren call (cs ++ ds) = (forChildren call cs).andThen (forChildren call ds) := by
  induction cs with
  | nil =>
    show forChildren call ds = (forChildren call []).andThen (forChildren call ds)
    simp [forChildren, Run.andThen]
  | cons c cs ih =>
    show (call c).andThen (forChildren call (cs ++ ds)) = _
    rw [ih, ← andThen_assoc]
    rfl

/-! ### Unfolding `traverse` -/

theorem traverse_zero (s : Store) (p : Nat) : traverse 0 s p = ⟨[], .outOfFuel⟩ := rfl

theorem traverse_succ_none (f : Nat) {s : Store} {p : Nat} (h : s[p]? = none) :
    traverse (f + 1) s p = ⟨[], .fault⟩ := by
  simp [traverse, h]

theorem traverse_succ_primitive (f : Nat) {s : Store} {p : Nat} {v : Int}
    (h : s[p]? = some (.Primitive v)) :
    traverse (f + 1) s p = ⟨[v], .done⟩ := by
  simp [traverse, h, Component.traverse]

theorem traverse_succ_composite (f : Nat) {s : Store} {p : Nat} {v : Int} {cs : List Nat}
    (h : s[p]? = some (.Composite v cs)) :
    traverse (f + 1) s p =
      ⟨v :: (forChildren (traverse f s) cs).out, (forChildren (traverse f s) cs).status⟩ := by
  simp [traverse, h, Composite.traverse, Component.traverse, Run.andThen]

theorem traverse_succ_composite_done_iff (f : Nat) {s : Store} {p : Nat} {v : Int}
    {cs : List Nat} (h : s[p]? = some (.Composite v cs)) :
    (traverse (f + 1) s p).status = .done ↔ ∀ c ∈ cs, (traverse f s c).status = .done := by
  rw [traverse_succ_composite f h]
  exact forChildren_done_iff _ _

/-! ### More fuel does not change a traversal that returned -/

theorem traverse_succ_of_done (s : Store) :
    ∀ (f p : Nat), (traverse f s p).status = .done → traverse (f + 1) s p = traverse f s p := by
  intro f
  induction f with
  | zero => intro p h; simp [traverse_zero] at h
  | succ f ih =>
    intro p h
    cases hp : s[p]? with
    | none => rw [traverse_succ_none _ hp, traverse_succ_none _ hp]
    | some x =>
      cases x with
      | Primitive v => rw [traverse_succ_primitive _ hp, traverse_succ_primitive _ hp]
      | Composite v cs =>
        have hall := (traverse_succ_composite_done_iff f hp).1 h
        rw [traverse_succ_composite _ hp, traverse_succ_composite _ hp]
        rw [forChildren_congr (traverse (f + 1) s) (traverse f s) cs
          (fun c hc => ih c (hall c hc))]

theorem traverse_of_done_of_le (s : Store) (p : Nat) {f g : Nat} (hfg : f ≤ g)
    (h : (traverse f s p).status = .done) : traverse g s p = traverse f s p := by
  induction g with
  | zero =>
    have : f = 0 := by omega
    subst this; rfl
  | succ g ih =>
    rcases Nat.lt_or_ge g f with hlt | hge
    · have : f = g + 1 := by omega
      subst this; rfl
    · have hg := ih hge
      rw [← hg]
      exact traverse_succ_of_done s g p (by rw [hg]; exact h)

/-! ### A traversal reads only the objects reachable from its start -/

theorem traverse_congr_of_reach (s t : Store) :
    ∀ (f p : Nat), (∀ q, Reach s p q → t[q]? = s[q]?) → traverse f t p = traverse f s p := by
  intro f
  induction f with
  | zero => intro p _; rfl
  | succ f ih =>
    intro p h
    have hp : t[p]? = s[p]? := h p Relation.ReflTransGen.refl
    cases hs : s[p]? with
    | none => rw [traverse_succ_none _ hs, traverse_succ_none _ (hp.trans hs)]
    | some x =>
      cases x with
      | Primitive v =>
        rw [traverse_succ_primitive _ hs, traverse_succ_primitive _ (hp.trans hs)]
      | Composite v cs =>
        rw [traverse_succ_composite _ hs, traverse_succ_composite _ (hp.trans hs)]
        rw [forChildren_congr (traverse f t) (traverse f s) cs]
        intro c hc
        apply ih
        intro q hq
        exact h q (Relation.ReflTransGen.head ⟨v, cs, hs, hc⟩ hq)

theorem traverse_set_of_not_reach (s : Store) (b : Nat) (x : Component) (f p : Nat)
    (h : ¬ Reach s p b) : traverse f (s.set b x) p = traverse f s p := by
  apply traverse_congr_of_reach
  intro q hq
  apply getElem?_set_of_ne
  rintro rfl
  exact h hq

/-! ### Returning traversals and the child relation -/

theorem child_of_mem {s : Store} {p c : Nat} {v : Int} {cs : List Nat}
    (h : s[p]? = some (.Composite v cs)) (hc : c ∈ cs) : Child s p c :=
  ⟨v, cs, h, hc⟩

theorem done_child (s : Store) (f p c : Nat) (h : (traverse (f + 1) s p).status = .done)
    (hc : Child s p c) : (traverse f s c).status = .done := by
  obtain ⟨v, cs, hp, hmem⟩ := hc
  exact (traverse_succ_composite_done_iff f hp).1 h c hmem

theorem done_descendant (s : Store) (p r : Nat) (hr : Relation.TransGen (Child s) p r) :
    ∀ f, (traverse f s p).status = .done → ∃ g, g < f ∧ (traverse g s r).status = .done := by
  induction hr with
  | single hc =>
    intro f h
    cases f with
    | zero => simp [traverse_zero] at h
    | succ f => exact ⟨f, Nat.lt_succ_self f, done_child s f p _ h hc⟩
  | tail _ hc ih =>
    intro f h
    obtain ⟨g, hg, hdone⟩ := ih f h
    cases g with
    | zero => simp [traverse_zero] at hdone
    | succ g => exact ⟨g, by omega, done_child s g _ _ hdone hc⟩

theorem not_done_of_cycle (s : Store) :
    ∀ (f p : Nat), Relation.TransGen (Child s) p p → (traverse f s p).status ≠ .done := by
  intro f
  induction f using Nat.strong_induction_on with
  | _ f ih =>
    intro p hcyc h
    obtain ⟨g, hg, hdone⟩ := done_descendant s p p hcyc f h
    exact ih g hg p hcyc hdone

theorem acc_of_done (s : Store) :
    ∀ (f p : Nat), (traverse f s p).status = .done → Acc (fun c q => Child s q c) p := by
  intro f
  induction f with
  | zero => intro p h; simp [traverse_zero] at h
  | succ f ih =>
    intro p h
    exact Acc.intro p (fun c hc => ih c (done_child s f p c h hc))

/-! ### In a well-formed heap without cycles every traversal returns -/

theorem done_of_acyclic_aux (s : Store) (hwf : WellFormed s) (hac : Acyclic s) :
    ∀ (f : Nat) (anc : Finset Nat) (p : Nat), p < s.length →
      (∀ a ∈ anc, a < s.length ∧ Relation.TransGen (Child s) a p) →
      s.length ≤ f + anc.card → (traverse f s p).status = .done := by
  intro f
  induction f with
  | zero =>
    intro anc p hp hanc hcard
    exfalso
    have hnot : p ∉ anc := fun hmem => hac p (hanc p hmem).2
    have hsub : anc ⊆ (Finset.range s.length).erase p := by
      intro a ha
      rw [Finset.mem_erase, Finset.mem_range]
      exact ⟨fun h => hnot (h ▸ ha), (hanc a ha).1⟩
    have h1 := Finset.card_le_card hsub
    rw [Finset.card_erase_of_mem (Finset.mem_range.2 hp), Finset.card_range] at h1
    omega
  | succ f ih =>
    intro anc p hp hanc hcard
    cases hs : s[p]? with
    | none =>
      rw [List.getElem?_eq_none_iff] at hs
      omega
    | some x =>
      cases x with
      | Primitive v => rw [traverse_succ_primitive _ hs]
      | Composite v cs =>
        rw [traverse_succ_composite_done_iff f hs]
        intro c hc
        have hchild : Child s p c := child_of_mem hs hc
        have hnot : p ∉ anc := fun hmem => hac p (hanc p hmem).2
        apply ih (insert p anc) c (hwf p c hchild)
        · intro a ha
          rcases Finset.mem_insert.1 ha with rfl | ha
          · exact ⟨hp, Relation.TransGen.single hchild⟩
          · exact ⟨(hanc a ha).1, Relation.TransGen.tail (hanc a ha).2 hchild⟩
        · rw [Finset.card_insert_of_not_mem hnot]
          omega

theorem done_of_acyclic (s : Store) (hwf : WellFormed s) (hac : Acyclic s) (f p : Nat)
    (hp : p < s.length) (hf : s.length ≤ f) : (traverse f s p).status = .done :=
  done_of_acyclic_aux s hwf hac f ∅ p hp (by simp) (by simpa using hf)

/-! ### How allocation and attachment change the child relation -/

theorem child_alloc_iff (s : Store) (x : Component) (hx : ∀ v cs, x = .Composite v cs → cs = [])
    (p c : Nat) : Child (alloc s x).1 p c ↔ Child s p c := by
  unfold Child alloc
  constructor
  · rintro ⟨v, cs, h, hc⟩
    rcases Nat.lt_trichotomy p s.length with hlt | heq | hgt
    · rw [List.getElem?_append_left hlt] at h
      exact ⟨v, cs, h, hc⟩
    · subst heq
      simp at h
      rw [hx v cs h] at hc
      cases hc
    · rw [List.getElem?_eq_none (by simp; omega)] at h
      cases h
  · rintro ⟨v, cs, h, hc⟩
    have hlt := lt_length_of_getElem? h
    exact ⟨v, cs, by rw [List.getElem?_append_left hlt]; exact h, hc⟩

theorem child_set_iff (s : Store) (b e : Nat) (v : Int) (cs : List Nat)
    (hB : s[b]? = some (.Composite v cs)) (p c : Nat) :
    Child (s.set b (.Composite v (cs ++ [e]))) p c ↔ Child s p c ∨ (p = b ∧ c = e) := by
  unfold Child
  by_cases hpb : p = b
  · subst hpb
    rw [getElem?_set_self_of_some hB]
    constructor
    · rintro ⟨w, ds, h, hc⟩
      cases h
      rcases List.mem_append.1 hc with hc | hc
      · exact Or.inl ⟨v, cs, hB, hc⟩
      · exact Or.inr ⟨rfl, by simpa using hc⟩
    · rintro (⟨w, ds, h, hc⟩ | ⟨_, rfl⟩)
      · rw [hB] at h
        cases h
        exact ⟨v, _, rfl, by simp [hc]⟩
      · exact ⟨v, _, rfl, by simp⟩
  · rw [getElem?_set_of_ne _ hpb]
    constructor
    · exact fun h => Or.inl h
    · rintro (h | ⟨h, _⟩)
      · exact h
      · exact absurd h hpb

theorem reach_of_reach_set (s : Store) (b e : Nat) (v : Int) (cs : List Nat)
    (hB : s[b]? = some (.Composite v cs)) (x : Nat)
    (h : Reach (s.set b (.Composite v (cs ++ [e]))) x b) : Reach s x b := by
  unfold Reach at h ⊢
  induction h using Relation.ReflTransGen.head_induction_on with
  | refl => exact Relation.ReflTransGen.refl
  | head hxy _ ih =>
    rcases (child_set_iff s b e v cs hB _ _).1 hxy with hc | ⟨rfl, _⟩
    · exact Relation.ReflTransGen.head hc ih
    · exact Relation.ReflTransGen.refl

theorem transGen_set (s : Store) (b e : Nat) (v : Int) (cs : List Nat)
    (hB : s[b]? = some (.Composite v cs)) (q r : Nat)
    (h : Relation.TransGen (Child (s.set b (.Composite v (cs ++ [e])))) q r) :
    Relation.TransGen (Child s) q r ∨
      (Reach (s.set b (.Composite v (cs ++ [e]))) q b ∧
        Reach (s.set b (.Composite v (cs ++ [e]))) e r) := by
  have hmono : ∀ x y, Child s x y → Child (s.set b (.Composite v (cs ++ [e]))) x y :=
    fun x y hxy => (child_set_iff s b e v cs hB x y).2 (Or.inl hxy)
  induction h with
  | single hc =>
    rcases (child_set_iff s b e v cs hB _ _).1 hc with hc | ⟨rfl, rfl⟩
    · exact Or.inl (Relation.TransGen.single hc)
    · exact Or.inr ⟨Relation.ReflTransGen.refl, Relation.ReflTransGen.refl⟩
  | tail hqm hc ih =>
    rcases ih with ih | ⟨h1, h2⟩
    · rcases (child_set_iff s b e v cs hB _ _).1 hc with hc | ⟨rfl, rfl⟩
      · exact Or.inl (Relation.TransGen.tail ih hc)
      · exact Or.inr ⟨(Relation.TransGen.mono hmono ih).to_reflTransGen,
          Relation.ReflTransGen.refl⟩
    · exact Or.inr ⟨h1, Relation.ReflTransGen.tail h2 hc⟩

theorem wellFormed_alloc (s : Store) (x : Component)
    (hx : ∀ v cs, x = .Composite v cs → cs = []) (h : WellFormed s) :
    WellFormed (alloc s x).1 := by
  intro p c hc
  have := h p c ((child_alloc_iff s x hx p c).1 hc)
  simp [alloc]
  omega

theorem acyclic_alloc (s : Store) (x : Component)
    (hx : ∀ v cs, x = .Composite v cs → cs = []) (h : Acyclic s) :
    Acyclic (alloc s x).1 := by
  intro p hp
  exact h p (Relation.TransGen.mono (fun a c => (child_alloc_iff s x hx a c).1) hp)

theorem wellFormed_set (s : Store) (b e : Nat) (v : Int) (cs : List Nat)
    (hB : s[b]? = some (.Composite v cs)) (he : e < s.length) (h : WellFormed s) :
    WellFormed (s.set b (.Composite v (cs ++ [e]))) := by
  intro p c hc
  rw [List.length_set]
  rcases (child_set_iff s b e v cs hB p c).1 hc with hc | ⟨_, rfl⟩
  · exact h p c hc
  · exact he

theorem acyclic_set (s : Store) (b e : Nat) (v : Int) (cs : List Nat)
    (hB : s[b]? = some (.Composite v cs)) (he : ¬ Reach s e b) (h : Acyclic s) :
    Acyclic (s.set b (.Composite v (cs ++ [e]))) := by
  intro p hp
  rcases transGen_set s b e v cs hB p p hp with hp | ⟨h1, h2⟩
  · exact h p hp
  · exact he (reach_of_reach_set s b e v cs hB e (Relation.ReflTransGen.trans h2 h1))

theorem add_cases (s t : Store) (b e : Nat) (h : Composite.add s b e = some t) :
    ∃ v cs, s[b]? = some (.Composite v cs) ∧ t = s.set b (.Composite v (cs ++ [e])) := by
  unfold Composite.add at h
  split at h
  · rename_i v cs hB
    exact ⟨v, cs, hB, by cases h; rfl⟩
  · cases h

theorem accept_cases (s t : Store) (r e : Nat) (h : accept s AddVisitor r e = some t) :
    (∃ v, s[r]? = some (.Primitive v) ∧ t = s) ∨
      ∃ v cs, s[r]? = some (.Composite v cs) ∧ t = s.set r (.Composite v (cs ++ [e])) := by
  cases hr : s[r]? with
  | none => simp [accept, hr] at h
  | some x =>
    cases x with
    | Primitive v =>
      rw [accept_primitive s r e v hr] at h
      cases h
      exact Or.inl ⟨v, rfl, rfl⟩
    | Composite v cs =>
      rw [accept_composite s r e v cs hr] at h
      cases h
      exact Or.inr ⟨v, cs, rfl, rfl⟩

theorem built_invariant (s : Store) (h : Built s) : WellFormed s ∧ Acyclic s := by
  induction h with
  | empty =>
    constructor
    · rintro p c ⟨v, cs, h, _⟩
      simp at h
    · intro p hp
      obtain ⟨c, ⟨v, cs, h, _⟩, _⟩ := Relation.TransGen.head'_iff.1 hp
      simp at h
  | newPrimitive s val _ ih =>
    have hx : ∀ v cs, Component.Primitive val = .Composite v cs → cs = [] := by
      intro v cs h; cases h
    exact ⟨wellFormed_alloc s _ hx ih.1, acyclic_alloc s _ hx ih.2⟩
  | newComposite s val _ ih =>
    have hx : ∀ v cs, Component.Composite val [] = .Composite v cs → cs = [] := by
      intro v cs h; cases h; rfl
    exact ⟨wellFormed_alloc s _ hx ih.1, acyclic_alloc s _ hx ih.2⟩
  | accept s t r e _ he hreach hacc ih =>
    rcases accept_cases s t r e hacc with ⟨v, _, rfl⟩ | ⟨v, cs, hB, rfl⟩
    · exact ih
    · exact ⟨wellFormed_set s r e v cs hB he ih.1, acyclic_set s r e v cs hB hreach ih.2⟩
  | add s t r e _ he hreach hadd ih =>
    obtain ⟨v, cs, hB, rfl⟩ := add_cases s t r e hadd
    exact ⟨wellFormed_set s r e v cs hB he ih.1, acyclic_set s r e v cs hB hreach ih.2⟩

/-! ### The output of a traversal that returns -/

theorem out_composite_of_done (s : Store) (f p : Nat) (v : Int) (cs : List Nat)
    (hs : s[p]? = some (.Composite v cs)) (h : (traverse f s p).status = .done) :
    (traverse f s p).out = v :: (cs.map (fun c => (traverse f s c).out)).flatten := by
  cases f with
  | zero => simp [traverse_zero] at h
  | succ g =>
    have hall := (traverse_succ_composite_done_iff g hs).1 h
    rw [traverse_succ_composite g hs]
    simp only
    rw [forChildren_out_of_done _ _ hall]
    congr 2
    apply List.map_congr_left
    intro c hc
    rw [traverse_succ_of_done s g c (hall c hc)]

theorem out_descendant_of_done (s : Store) (f : Nat) (p d : Nat)
    (hd : Relation.TransGen (Child s) p d) :
    (traverse f s p).status = .done →
    ∃ x pre post, s[p]? = some x ∧
      (traverse f s p).out = x.value :: (pre ++ (traverse f s d).out ++ post) := by
  induction hd using Relation.TransGen.head_induction_on with
  | base hc =>
    intro h
    obtain ⟨v, cs, hs, hmem⟩ := hc
    obtain ⟨l₁, l₂, rfl⟩ := List.append_of_mem hmem
    refine ⟨_, (l₁.map (fun c => (traverse f s c).out)).flatten,
      (l₂.map (fun c => (traverse f s c).out)).flatten, hs, ?_⟩
    rw [out_composite_of_done s f _ v _ hs h]
    simp [Component.value]
  | ih hc _ ih =>
    intro h
    rename_i a c _
    obtain ⟨v, cs, hs, hmem⟩ := hc
    have hcdone : (traverse f s c).status = .done := by
      cases f with
      | zero => simp [traverse_zero] at h
      | succ g =>
        have := (traverse_succ_composite_done_iff g hs).1 h c hmem
        rw [traverse_succ_of_done s g c this]
        exact this
    obtain ⟨x, pre, post, _, hout⟩ := ih hcdone
    obtain ⟨l₁, l₂, rfl⟩ := List.append_of_mem hmem
    refine ⟨_, (l₁.map (fun c => (traverse f s c).out)).flatten ++ x.value :: pre,
      post ++ (l₂.map (fun c => (traverse f s c).out)).flatten, hs, ?_⟩
    rw [out_composite_of_done s f _ v _ hs h]
    simp [Component.value, hout]

/-! ### A check for concrete heaps -/

theorem wellFormed_acyclic_of_done (s : Store) (f : Nat)
    (h : ∀ p, p < s.length → (traverse f s p).status = .done) :
    WellFormed s ∧ Acyclic s := by
  constructor
  · intro p c hc
    have hp : p < s.length := by
      obtain ⟨v, cs, hs, _⟩ := hc
      exact lt_length_of_getElem? hs
    have hdone := h p hp
    cases f with
    | zero => simp [traverse_zero] at hdone
    | succ g =>
      have hcd := done_child s g p c hdone hc
      apply lt_of_not_ge
      intro hge
      cases g with
      | zero => simp [traverse_zero] at hcd
      | succ k =>
        rw [traverse_succ_none k (List.getElem?_eq_none hge)] at hcd
        cases hcd
  · intro p hp
    obtain ⟨c, ⟨v, cs, hs, _⟩, _⟩ := Relation.TransGen.head'_iff.1 hp
    exact not_done_of_cycle s f p hp (h p (lt_length_of_getElem? hs))

/-! ### One call keeps every value -/

theorem value_fixed_set (s : Store) (b e : Nat) (v : Int) (cs : List Nat)
    (hB : s[b]? = some (.Composite v cs)) (n : Nat) (x : Component) (hn : s[n]? = some x) :
    ∃ y, (s.set b (.Composite v (cs ++ [e])))[n]? = some y ∧ y.value = x.value := by
  by_cases hnb : n = b
  · subst hnb
    rw [hB] at hn
    cases hn
    exact ⟨_, getElem?_set_self_of_some hB, rfl⟩
  · exact ⟨x, by rw [getElem?_set_of_ne _ hnb]; exact hn, rfl⟩

theorem value_fixed_step (fuel : Nat) (c : Call) (s t : Store) (n : Nat) (x : Component)
    (hn : s[n]? = some x) (hstep : c.run fuel s = some t) :
    ∃ y, t[n]? = some y ∧ y.value = x.value := by
  cases c with
  | traverse p =>
    simp only [Call.run] at hstep
    split at hstep
    · cases hstep; exact ⟨x, hn, rfl⟩
    · cases hstep
  | accept r e =>
    rcases accept_cases s t r e hstep with ⟨v, _, rfl⟩ | ⟨v, cs, hB, rfl⟩
    · exact ⟨x, hn, rfl⟩
    · exact value_fixed_set s r e v cs hB n x hn
  | add r e =>
    obtain ⟨v, cs, hB, rfl⟩ := add_cases s t r e hstep
    exact value_fixed_set s r e v cs hB n x hn
  | newPrimitive val =>
    simp only [Call.run, alloc, Option.some.injEq] at hstep
    subst hstep
    exact ⟨x, by rw [List.getElem?_append_left (lt_length_of_getElem? hn)]; exact hn, rfl⟩
  | newComposite val =>
    simp only [Call.run, alloc, Option.some.injEq] at hstep
    subst hstep
    exact ⟨x, by rw [List.getElem?_append_left (lt_length_of_getElem? hn)]; exact hn, rfl⟩

/-! ### A well-formed heap has no faulting traversal -/

theorem forChildren_ne_fault (call : Nat → Run) (cs : List Nat)
    (h : ∀ c ∈ cs, (call c).status ≠ .fault) : (forChildren call cs).status ≠ .fault := by
  induction cs with
  | nil => simp [forChildren]
  | cons c cs ih =>
    have hc : (call c).status ≠ .fault := h c (by simp)
    have hcs : (forChildren call cs).status ≠ .fault := ih (fun d hd => h d (by simp [hd]))
    by_cases hd : (call c).status = .done
    · simp only [forChildren]
      rw [andThen_of_done _ _ hd]
      exact hcs
    · simp only [forChildren]
      rw [andThen_of_not_done _ _ hd]
      exact hc

theorem traverse_ne_fault (s : Store) (hwf : WellFormed s) :
    ∀ (f p : Nat), p < s.length → (traverse f s p).status ≠ .fault := by
  intro f
  induction f with
  | zero => intro p _; simp [traverse_zero]
  | succ f ih =>
    intro p hp
    cases hs : s[p]? with
    | none =>
      rw [List.getElem?_eq_none_iff] at hs
      omega
    | some x =>
      cases x with
      | Primitive v => simp [traverse_succ_primitive _ hs]
      | Composite v cs =>
        rw [traverse_succ_composite f hs]
        exact forChildren_ne_fault _ _ (fun c hc => ih c (hwf p c (child_of_mem hs hc)))

/-! ### The traversal of a receiver after an attach -/

theorem traverse_after_attach (s : Store) (b p : Nat) (v : Int) (cs : List Nat) (f : Nat)
    (hB : s[b]? = some (.Composite v cs)) (hreach : ¬ Reach s p b)
    (hdB : (traverse f s b).status = .done) (hdP : (traverse f s p).status = .done)
    (g : Nat) (hg : f ≤ g) :
    traverse (g + 1) (s.set b (.Composite v (cs ++ [p]))) b =
      ⟨(traverse f s b).out ++ (traverse f s p).out, .done⟩ := by
  have h2 : (s.set b (.Composite v (cs ++ [p])))[b]? = some (.Composite v (cs ++ [p])) :=
    getElem?_set_self_of_some hB
  have hBg : traverse (g + 1) s b = traverse f s b :=
    traverse_of_done_of_le s b (Nat.le_succ_of_le hg) hdB
  have hPg : traverse g s p = traverse f s p := traverse_of_done_of_le s p hg hdP
  have hBdone : (traverse (g + 1) s b).status = .done := by rw [hBg]; exact hdB
  have hF : (forChildren (traverse g s) cs).status = .done := by
    rw [traverse_succ_composite g hB] at hBdone
    exact hBdone
  have hout : (traverse f s b).out = v :: (forChildren (traverse g s) cs).out := by
    rw [← hBg, traverse_succ_composite g hB]
  have hframe : ∀ c ∈ cs ++ [p],
      traverse g (s.set b (.Composite v (cs ++ [p]))) c = traverse g s c := by
    intro c hc
    apply traverse_set_of_not_reach
    rcases List.mem_append.1 hc with hc | hc
    · intro hcb
      exact not_done_of_cycle s f b
        (Relation.TransGen.head' (child_of_mem hB hc) hcb) hdB
    · have : c = p := by simpa using hc
      rw [this]
      exact hreach
  rw [traverse_succ_composite g h2, forChildren_congr _ _ _ hframe, forChildren_append]
  have hPP : ∀ r : Run, (traverse f s p).andThen r =
      ⟨(traverse f s p).out ++ r.out, r.status⟩ := fun r => andThen_of_done _ r hdP
  simp [forChildren, andThen_of_done _ _ hF, hPP, hout, hPg]

/-! ### What a returning traversal writes: how many integers, and which -/

theorem length_out_of_done (s : Store) :
    ∀ (f p : Nat), (traverse f s p).status = .done →
      (traverse f s p).out.length = unfoldedSize f s p := by
  intro f
  induction f with
  | zero => intro p h; simp [traverse_zero] at h
  | succ f ih =>
    intro p h
    cases hs : s[p]? with
    | none => rw [traverse_succ_none _ hs] at h; cases h
    | some x =>
      cases x with
      | Primitive v => simp [traverse_succ_primitive _ hs, unfoldedSize, hs]
      | Composite v cs =>
        have hall := (traverse_succ_composite_done_iff f hs).1 h
        rw [traverse_succ_composite f hs]
        simp only [unfoldedSize, hs, List.length_cons]
        rw [forChildren_out_of_done _ _ hall, List.length_flatten, List.map_map, Nat.add_comm]
        congr 2
        apply List.map_congr_left
        intro c hc
        exact ih c (hall c hc)

theorem mem_out_iff_of_done (s : Store) :
    ∀ (f p : Nat), (traverse f s p).status = .done → ∀ x : Int,
      (x ∈ (traverse f s p).out ↔
        ∃ q y, Reach s p q ∧ s[q]? = some y ∧ y.value = x) := by
  intro f
  induction f with
  | zero => intro p h; simp [traverse_zero] at h
  | succ f ih =>
    intro p h x
    cases hs : s[p]? with
    | none => rw [traverse_succ_none _ hs] at h; cases h
    | some y =>
      cases y with
      | Primitive v =>
        rw [traverse_succ_primitive _ hs]
        constructor
        · intro hx
          have hxv : x = v := by simpa using hx
          exact ⟨p, _, Relation.ReflTransGen.refl, hs, hxv.symm⟩
        · rintro ⟨q, y, hq, hy, rfl⟩
          rcases Relation.ReflTransGen.cases_head hq with rfl | ⟨c, ⟨w, ds, hp, _⟩, _⟩
          · rw [hs] at hy
            cases hy
            simp [Component.value]
          · rw [hs] at hp
            cases hp
      | Composite v cs =>
        have hall := (traverse_succ_composite_done_iff f hs).1 h
        rw [traverse_succ_composite f hs]
        simp only
        rw [forChildren_out_of_done _ _ hall]
        constructor
        · intro hx
          rcases List.mem_cons.1 hx with rfl | hx
          · exact ⟨p, _, Relation.ReflTransGen.refl, hs, rfl⟩
          · obtain ⟨l, hl, hxl⟩ := List.mem_flatten.1 hx
            obtain ⟨c, hc, rfl⟩ := List.mem_map.1 hl
            obtain ⟨q, y, hq, hy, hval⟩ := (ih c (hall c hc) x).1 hxl
            exact ⟨q, y, Relation.ReflTransGen.head (child_of_mem hs hc) hq, hy, hval⟩
        · rintro ⟨q, y, hq, hy, rfl⟩
          rcases Relation.ReflTransGen.cases_head hq with rfl | ⟨c, ⟨w, ds, hp, hc⟩, hcq⟩
          · rw [hs] at hy
            cases hy
            simp [Component.value]
          · rw [hs] at hp
            cases hp
            apply List.mem_cons_of_mem
            apply List.mem_flatten.2
            exact ⟨_, List.mem_map.2 ⟨c, hc, rfl⟩, (ih c (hall c hc) _).2 ⟨q, y, hcq, hy, rfl⟩⟩

/-! ### The state-passing traversal: the heap it returns, and what it writes -/

theorem component_traverseIn_heap (w : World) (this : Nat) :
    (Component.traverseIn w this).1.heap = w.heap := by
  unfold Component.traverseIn
  cases w.heap[this]? <;> rfl

theorem forChildrenIn_heap (call : World → Nat → World × Status) (this : Nat)
    (hcall : ∀ w c, (call w c).1.heap = w.heap) :
    ∀ (k i : Nat) (w : World), (forChildrenIn call this k i w).1.heap = w.heap := by
  intro k
  induction k with
  | zero => intro i w; rfl
  | succ k ih =>
    intro i w
    simp only [forChildrenIn]
    split
    · split
      · rfl
      · split
        · rw [ih, hcall]
        · exact hcall _ _
    · rfl

theorem traverseIn_heap (k : Nat) :
    ∀ (f : Nat) (w : World) (p : Nat), (traverseIn k f w p).1.heap = w.heap := by
  intro f
  induction f with
  | zero => intro w p; rfl
  | succ f ih =>
    intro w p
    simp only [traverseIn]
    split
    · rfl
    · exact component_traverseIn_heap w p
    · simp only [Composite.traverseIn]
      split
      · rw [forChildrenIn_heap _ _ (fun u c => ih u c), component_traverseIn_heap]
      · exact component_traverseIn_heap w p

theorem forChildrenIn_eq (call : World → Nat → World × Status) (pc : Nat → Run) (s : Store)
    (this : Nat) (v : Int) (cs : List Nat) (hthis : s[this]? = some (.Composite v cs))
    (hcall : ∀ w c, w.heap = s → call w c = (⟨s, w.cout ++ (pc c).out⟩, (pc c).status)) :
    ∀ (k i : Nat) (w : World), w.heap = s → i ≤ cs.length → cs.length < k + i →
      forChildrenIn call this k i w =
        (⟨s, w.cout ++ (forChildren pc (cs.drop i)).out⟩,
          (forChildren pc (cs.drop i)).status) := by
  intro k
  induction k with
  | zero => intro i w _ h1 h2; omega
  | succ k ih =>
    intro i w hw h1 h2
    obtain ⟨heap, cout⟩ := w
    simp only at hw
    subst hw
    simp only [forChildrenIn, hthis]
    cases hci : cs[i]? with
    | none =>
      have hi : cs.length ≤ i := List.getElem?_eq_none_iff.1 hci
      simp [List.drop_of_length_le hi, forChildren]
    | some c =>
      have hi : i < cs.length := by
        rcases Nat.lt_or_ge i cs.length with h | h
        · exact h
        · rw [List.getElem?_eq_none h] at hci; cases hci
      have hdrop : cs.drop i = c :: cs.drop (i + 1) := by
        rw [List.drop_eq_getElem_cons hi]
        congr 1
        rw [List.getElem?_eq_getElem hi] at hci
        exact Option.some.inj hci
      simp only [hcall ⟨heap, cout⟩ c rfl, hdrop, forChildren]
      by_cases hd : (pc c).status = .done
      · simp only [hd]
        rw [ih (i + 1) _ rfl (by omega) (by omega), andThen_of_done _ _ hd]
        simp [List.append_assoc]
      · rw [andThen_of_not_done _ _ hd]
        cases hst : (pc c).status with
        | done => exact absurd hst hd
        | outOfFuel => rfl
        | fault => rfl

theorem traverseIn_eq (k : Nat) :
    ∀ (f : Nat) (w : World) (p : Nat),
      (∀ (q : Nat) (v : Int) (cs : List Nat),
        w.heap[q]? = some (Component.Composite v cs) → cs.length < k) →
      traverseIn k f w p =
        (⟨w.heap, w.cout ++ (traverse f w.heap p).out⟩, (traverse f w.heap p).status) := by
  intro f
  induction f with
  | zero => intro w p _; simp [traverseIn, traverse_zero]
  | succ f ih =>
    intro w p hk
    obtain ⟨s, cout⟩ := w
    simp only at hk ⊢
    cases hs : s[p]? with
    | none => simp [traverseIn, hs, traverse_succ_none f hs]
    | some x =>
      cases x with
      | Primitive v =>
        simp [traverseIn, hs, traverse_succ_primitive f hs, Component.traverseIn,
          Component.value]
      | Composite v cs =>
        have hloop := forChildrenIn_eq (fun u c => traverseIn k f u c) (traverse f s) s p v cs hs
          (fun u c hu => by
            obtain ⟨uh, uc⟩ := u
            simp only at hu
            subst hu
            exact ih ⟨uh, uc⟩ c hk)
          k 0 ⟨s, cout ++ [v]⟩ rfl (Nat.zero_le _) (by simpa using hk p v cs hs)
        simp only [traverseIn, hs, Composite.traverseIn, Component.traverseIn,
          Component.value, traverse_succ_composite f hs]
        rw [hloop]
        simp [List.append_assoc]

/-! ### The claims -/

/-- C1: for a `Composite` at address `b` with value `v` and children `cs`, the
call `b->accept(addVisitor, p)` returns and afterwards the object at `b` has the
same value `v` and the children `cs` followed by `p`: one entry more, the first
`|cs|` entries unchanged, and one more occurrence of `p`. -/
theorem C1_accept_appends_payload (s : Store) (b p : Nat) (v : Int) (cs : List Nat)
    (hB : s[b]? = some (.Composite v cs)) :
    ∃ t, accept s AddVisitor b p = some t ∧
      t[b]? = some (.Composite v (cs ++ [p])) ∧
      (cs ++ [p]).length = cs.length + 1 ∧
      (cs ++ [p]).take cs.length = cs ∧
      (cs ++ [p]).count p = cs.count p + 1 := by
  refine ⟨_, accept_composite s b p v cs hB, getElem?_set_self_of_some hB, ?_, ?_, ?_⟩
  · simp
  · simp
  · simp

theorem C1_accept_appends_payload_witness :
    ∃ t, accept [.Composite 1 [1], .Primitive 2, .Composite 3 []] AddVisitor 0 2 = some t ∧
      t[0]? = some (.Composite 1 ([1] ++ [2])) ∧
      ([1] ++ [2]).length = [1].length + 1 ∧
      ([1] ++ [2]).take [1].length = [1] ∧
      ([1] ++ [2]).count 2 = [1].count 2 + 1 :=
  C1_accept_appends_payload [.Composite 1 [1], .Primitive 2, .Composite 3 []] 0 2 1 [1]
    (by decide)

/-- C2: in a heap without dangling pointers and without cycles, `traverse` on any
object returns (for every recursion budget of at least the number of objects,
always with the same result) and what it writes is the pre-order: `[value]` for a
`Primitive`; for a `Composite` its value followed by the outputs of the traversals
of its children, concatenated in the order of the child vector.  Hence the value
of an object comes before the output of each of its descendants, and the outputs
of two children come in the order in which the children were added. -/
theorem C2_traverse_is_preorder (s : Store) (hwf : WellFormed s) (hac : Acyclic s)
    (p : Nat) (hp : p < s.length) (f : Nat) (hf : s.length ≤ f) :
    (traverse f s p).status = .done ∧
    (∀ g, s.length ≤ g → traverse g s p = traverse f s p) ∧
    (∀ v, s[p]? = some (.Primitive v) → (traverse f s p).out = [v]) ∧
    (∀ v cs, s[p]? = some (.Composite v cs) →
      (traverse f s p).out = v :: (cs.map (fun c => (traverse f s c).out)).flatten) ∧
    (∀ d, Relation.TransGen (Child s) p d → ∃ x pre post, s[p]? = some x ∧
      (traverse f s p).out = x.value :: (pre ++ (traverse f s d).out ++ post)) ∧
    (∀ v l₁ c₁ l₂ c₂ l₃, s[p]? = some (.Composite v (l₁ ++ c₁ :: (l₂ ++ c₂ :: l₃))) →
      (traverse f s p).out =
        v :: ((l₁.map (fun c => (traverse f s c).out)).flatten ++ (traverse f s c₁).out ++
          (l₂.map (fun c => (traverse f s c).out)).flatten ++ (traverse f s c₂).out ++
          (l₃.map (fun c => (traverse f s c).out)).flatten)) := by
  have hdone : (traverse f s p).status = .done := done_of_acyclic s hwf hac f p hp hf
  refine ⟨hdone, ?_, ?_, ?_, ?_, ?_⟩
  · intro g hg
    have h1 := done_of_acyclic s hwf hac s.length p hp (Nat.le_refl _)
    rw [traverse_of_done_of_le s p hg h1, traverse_of_done_of_le s p hf h1]
  · intro v hs
    cases f with
    | zero => simp [traverse_zero] at hdone
    | succ g => rw [traverse_succ_primitive g hs]
  · intro v cs hs
    exact out_composite_of_done s f p v cs hs hdone
  · intro d hd
    exact out_descendant_of_done s f p d hd hdone
  · intro v l₁ c₁ l₂ c₂ l₃ hs
    rw [out_composite_of_done s f p v _ hs hdone]
    simp

theorem C2_traverse_is_preorder_witness :
    WellFormed [.Composite 1 [1, 2], .Composite 2 [2], .Primitive 3] ∧
    Acyclic [.Composite 1 [1, 2], .Composite 2 [2], .Primitive 3] ∧
    (traverse 3 [.Composite 1 [1, 2], .Composite 2 [2], .Primitive 3] 0).status = .done ∧
    (traverse 3 [.Composite 1 [1, 2], .Composite 2 [2], .Primitive 3] 0).out =
      1 :: ([1, 2].map (fun c =>
        (traverse 3 [.Composite 1 [1, 2], .Composite 2 [2], .Primitive 3] c).out)).flatten := by
  have h := wellFormed_acyclic_of_done
    [.Composite 1 [1, 2], .Composite 2 [2], .Primitive 3] 3 (by decide)
  have hC := C2_traverse_is_preorder _ h.1 h.2 0 (by decide) 3 (by decide)
  exact ⟨h.1, h.2, hC.1, hC.2.2.2.1 1 [1, 2] (by decide)⟩

/-- C3: for a `Primitive` at address `l` and any payload `p`, the call
`l->accept(addVisitor, p)` returns and leaves the heap as it was (so the value of
`l`, the payload and every other object are unchanged), and `l->traverse()`
writes exactly the value of `l`, before the call and after it. -/
theorem C3_accept_on_primitive_is_noop (s : Store) (l p : Nat) (v : Int)
    (hL : s[l]? = some (.Primitive v)) :
    ∃ t, accept s AddVisitor l p = some t ∧ t = s ∧
      ∀ fuel, traverse (fuel + 1) s l = ⟨[v], .done⟩ ∧
        traverse (fuel + 1) t l = ⟨[v], .done⟩ := by
  refine ⟨s, accept_primitive s l p v hL, rfl, fun fuel => ?_⟩
  simp [traverse, hL, Component.traverse]

theorem C3_accept_on_primitive_is_noop_witness :
    ([Component.Primitive 4, .Primitive 9] : Store)[0]? = some (.Primitive 4) ∧
    ∃ t, accept [.Primitive 4, .Primitive 9] AddVisitor 0 1 = some t ∧
      t = [.Primitive 4, .Primitive 9] ∧
      ∀ fuel, traverse (fuel + 1) [.Primitive 4, .Primitive 9] 0 = ⟨[4], .done⟩ ∧
        traverse (fuel + 1) t 0 = ⟨[4], .done⟩ :=
  ⟨by decide, C3_accept_on_primitive_is_noop [.Primitive 4, .Primitive 9] 0 1 4 (by decide)⟩

/-- C4: `main` attaches Composite(2), Composite(3) and Primitive(4) to
Composite(1), then Primitive(5) and Primitive(6) to Composite(2), then
Primitive(7) to Composite(3); with a recursion budget of at least three nested
calls its three traversals return and write `1 2 5 6 3 7 4`, `2 5 6` and `3 7`:
the objects attached to Composite(2) and Composite(3) after these were attached
to Composite(1) show up in the traversal of Composite(1). -/
theorem C4_main_output (fuel : Nat) (hfuel : 3 ≤ fuel) :
    main fuel = some [⟨[1, 2, 5, 6, 3, 7, 4], .done⟩, ⟨[2, 5, 6], .done⟩, ⟨[3, 7], .done⟩] := by
  obtain ⟨n, rfl⟩ : ∃ n, fuel = n + 3 := ⟨fuel - 3, by omega⟩
  simp [main, alloc, accept, Composite.accept, AddVisitor, Composite.add, traverse,
    Composite.traverse, Component.traverse, forChildren, Run.andThen]

theorem C4_main_output_witness :
    3 ≤ 3 ∧
    main 3 = some [⟨[1, 2, 5, 6, 3, 7, 4], .done⟩, ⟨[2, 5, 6], .done⟩, ⟨[3, 7], .done⟩] :=
  ⟨by decide, C4_main_output 3 (by decide)⟩

/-- C5: in a heap built from fresh objects by attach calls whose payload is an
existing object that is neither the receiver nor an ancestor of the receiver,
the child relation is well-founded and `traverse` on every object returns, with a
finite output, for every recursion budget of at least the number of objects. -/
theorem C5_traverse_terminates_on_built (s : Store) (hB : Built s) :
    WellFounded (fun c q => Child s q c) ∧
    ∀ p, p < s.length → ∀ f, s.length ≤ f →
      ∃ out, traverse f s p = ⟨out, .done⟩ := by
  obtain ⟨hwf, hac⟩ := built_invariant s hB
  constructor
  · constructor
    intro q
    rcases Nat.lt_or_ge q s.length with hq | hq
    · exact acc_of_done s s.length q (done_of_acyclic s hwf hac _ q hq (Nat.le_refl _))
    · refine Acc.intro q ?_
      rintro c ⟨v, cs, hs, _⟩
      rw [List.getElem?_eq_none hq] at hs
      cases hs
  · intro p hp f hf
    exact ⟨(traverse f s p).out, by rw [← done_of_acyclic s hwf hac f p hp hf]⟩

theorem C5_traverse_terminates_on_built_witness :
    Built [.Composite 1 [1], .Primitive 2] ∧
    WellFounded (fun c q => Child [.Composite 1 [1], .Primitive 2] q c) ∧
    ∀ p, p < 2 → ∀ f, 2 ≤ f →
      ∃ out, traverse f [.Composite 1 [1], .Primitive 2] p = ⟨out, .done⟩ := by
  have h0 : Built [.Composite 1 [], .Primitive 2] :=
    Built.newPrimitive _ 2 (Built.newComposite _ 1 Built.empty)
  have hreach : ¬ Reach [.Composite 1 [], .Primitive 2] 1 0 := by
    intro h
    rcases Relation.ReflTransGen.cases_head h with h | ⟨c, ⟨v, cs, hs, _⟩, _⟩
    · cases h
    · simp at hs
  have hB : Built [.Composite 1 [1], .Primitive 2] :=
    Built.accept _ _ 0 1 h0 (by decide) hreach (by decide)
  exact ⟨hB, C5_traverse_terminates_on_built _ hB⟩

/-- C6: which `visit` overload `receiver->accept(v, payload)` runs depends on the
class of the receiver only, for every visitor and for any two payloads: a
`Primitive` receiver runs the `Primitive` overload, which for an `AddVisitor`
leaves the heap unchanged (the payload is neither modified nor attached); a
`Composite` receiver runs the `Composite` overload, which for an `AddVisitor`
appends the payload to the children of the receiver. -/
theorem C6_overload_chosen_by_receiver (s : Store) (vis : Visitor) (r p₁ p₂ : Nat) :
    (∀ v, s[r]? = some (.Primitive v) →
      accept s vis r p₁ = vis.visitPrimitive s r p₁ ∧
      accept s vis r p₂ = vis.visitPrimitive s r p₂ ∧
      accept s AddVisitor r p₁ = some s ∧ accept s AddVisitor r p₂ = some s) ∧
    (∀ v cs, s[r]? = some (.Composite v cs) →
      accept s vis r p₁ = vis.visitComposite s r p₁ ∧
      accept s vis r p₂ = vis.visitComposite s r p₂ ∧
      accept s AddVisitor r p₁ = some (s.set r (.Composite v (cs ++ [p₁]))) ∧
      accept s AddVisitor r p₂ = some (s.set r (.Composite v (cs ++ [p₂])))) := by
  constructor
  · intro v hr
    refine ⟨?_, ?_, accept_primitive s r p₁ v hr, accept_primitive s r p₂ v hr⟩ <;>
      simp [accept, hr, Primitive.accept]
  · intro v cs hr
    refine ⟨?_, ?_, accept_composite s r p₁ v cs hr, accept_composite s r p₂ v cs hr⟩ <;>
      simp [accept, hr, Composite.accept]

theorem C6_overload_chosen_by_receiver_witness :
    accept [.Primitive 4, .Composite 1 [], .Primitive 9] AddVisitor 0 1 =
      some [.Primitive 4, .Composite 1 [], .Primitive 9] ∧
    accept [.Primitive 4, .Composite 1 [], .Primitive 9] AddVisitor 1 2 =
      some [.Primitive 4, .Composite 1 [2], .Primitive 9] :=
  ⟨((C6_overload_chosen_by_receiver [.Primitive 4, .Composite 1 [], .Primitive 9]
      AddVisitor 0 1 2).1 4 (by decide)).2.2.1,
   ((C6_overload_chosen_by_receiver [.Primitive 4, .Composite 1 [], .Primitive 9]
      AddVisitor 1 0 2).2 1 [] (by decide)).2.2.2⟩

/-- C7: the value of an object is fixed at construction: after any sequence of
`traverse`, `accept(addVisitor, ·)`, `Composite::add` calls and allocations that
all return, on any objects of the heap, the object at address `n` is still there
and has the value it had before. -/
theorem C7_value_is_fixed (fuel : Nat) (calls : List Call) (s t : Store) (n : Nat)
    (x : Component) (hn : s[n]? = some x) (hrun : runCalls fuel s calls = some t) :
    ∃ y, t[n]? = some y ∧ y.value = x.value := by
  induction calls generalizing s x with
  | nil =>
    simp only [runCalls, Option.some.injEq] at hrun
    subst hrun
    exact ⟨x, hn, rfl⟩
  | cons c cs ih =>
    simp only [runCalls] at hrun
    cases hstep : c.run fuel s with
    | none => simp [hstep] at hrun
    | some u =>
      rw [hstep] at hrun
      obtain ⟨y, hy, hval⟩ := value_fixed_step fuel c s u n x hn hstep
      obtain ⟨z, hz, hval2⟩ := ih u y hy hrun
      exact ⟨z, hz, hval2.trans hval⟩

theorem C7_value_is_fixed_witness :
    runCalls 2 [.Composite 1 [], .Primitive 2]
      [.accept 0 1, .traverse 0, .add 0 1, .accept 1 0, .newPrimitive 5] =
      some [.Composite 1 [1, 1], .Primitive 2, .Primitive 5] ∧
    ∃ y, ([.Composite 1 [1, 1], .Primitive 2, .Primitive 5] : Store)[0]? = some y ∧
      y.value = (Component.Composite 1 []).value :=
  ⟨by decide, C7_value_is_fixed 2
    [.accept 0 1, .traverse 0, .add 0 1, .accept 1 0, .newPrimitive 5]
    [.Composite 1 [], .Primitive 2] _ 0 (.Composite 1 []) (by decide) (by decide)⟩

/-- C8: attaching has no duplicate guard.  For a `Composite` at `b` with children
`cs` and a payload `p` from which `b` is not reachable (so `p` is not `b`), when
`traverse` on `b` and on `p` returns, two calls `b->accept(addVisitor, p)` in a
row return and leave `b` with the children `cs` followed by `p, p` (two more
occurrences of `p`), and `traverse` on `b` then returns and writes the old output
of `b` followed by the output of `traverse` on `p` twice. -/
theorem C8_attach_twice (s : Store) (b p : Nat) (v : Int) (cs : List Nat) (f : Nat)
    (hB : s[b]? = some (.Composite v cs)) (hreach : ¬ Reach s p b)
    (hdB : (traverse f s b).status = .done) (hdP : (traverse f s p).status = .done) :
    ∃ t₁ t₂, accept s AddVisitor b p = some t₁ ∧ accept t₁ AddVisitor b p = some t₂ ∧
      t₂[b]? = some (.Composite v (cs ++ [p, p])) ∧
      (cs ++ [p, p]).count p = cs.count p + 2 ∧
      ∀ g, f ≤ g → traverse (g + 1) t₂ b =
        ⟨(traverse f s b).out ++ (traverse f s p).out ++ (traverse f s p).out, .done⟩ := by
  have h1 : (s.set b (.Composite v (cs ++ [p])))[b]? = some (.Composite v (cs ++ [p])) :=
    getElem?_set_self_of_some hB
  have hset : (s.set b (.Composite v (cs ++ [p]))).set b (.Composite v (cs ++ [p] ++ [p])) =
      s.set b (.Composite v (cs ++ [p, p])) := by
    rw [List.set_set]
    simp
  have h2 : (s.set b (.Composite v (cs ++ [p, p])))[b]? = some (.Composite v (cs ++ [p, p])) :=
    getElem?_set_self_of_some hB
  refine ⟨_, _, accept_composite s b p v cs hB, ?_, h2, by simp, ?_⟩
  · rw [accept_composite _ b p v (cs ++ [p]) h1, hset]
  · intro g hg
    have hBg : traverse (g + 1) s b = traverse f s b :=
      traverse_of_done_of_le s b (Nat.le_succ_of_le hg) hdB
    have hPg : traverse g s p = traverse f s p := traverse_of_done_of_le s p hg hdP
    have hBdone : (traverse (g + 1) s b).status = .done := by rw [hBg]; exact hdB
    have hF : (forChildren (traverse g s) cs).status = .done := by
      rw [traverse_succ_composite g hB] at hBdone
      exact hBdone
    have hout : (traverse f s b).out = v :: (forChildren (traverse g s) cs).out := by
      rw [← hBg, traverse_succ_composite g hB]
    have hframe : ∀ c ∈ cs ++ [p, p],
        traverse g (s.set b (.Composite v (cs ++ [p, p]))) c = traverse g s c := by
      intro c hc
      apply traverse_set_of_not_reach
      rcases List.mem_append.1 hc with hc | hc
      · intro hcb
        exact not_done_of_cycle s f b
          (Relation.TransGen.head' (child_of_mem hB hc) hcb) hdB
      · have : c = p := by simpa using hc
        rw [this]
        exact hreach
    rw [traverse_succ_composite g h2, forChildren_congr _ _ _ hframe, forChildren_append]
    have hPP : ∀ r : Run, (traverse f s p).andThen r =
        ⟨(traverse f s p).out ++ r.out, r.status⟩ := fun r => andThen_of_done _ r hdP
    simp [forChildren, andThen_of_done _ _ hF, hPP, hout, hPg]

theorem C8_attach_twice_witness :
    ∃ t₁ t₂, accept [.Composite 1 [2], .Composite 2 [2], .Primitive 3] AddVisitor 0 1 = some t₁ ∧
      accept t₁ AddVisitor 0 1 = some t₂ ∧
      t₂[0]? = some (.Composite 1 ([2] ++ [1, 1])) ∧
      ([2] ++ [1, 1]).count 1 = [2].count 1 + 2 ∧
      ∀ g, 2 ≤ g → traverse (g + 1) t₂ 0 =
        ⟨(traverse 2 [.Composite 1 [2], .Composite 2 [2], .Primitive 3] 0).out ++
          (traverse 2 [.Composite 1 [2], .Composite 2 [2], .Primitive 3] 1).out ++
          (traverse 2 [.Composite 1 [2], .Composite 2 [2], .Primitive 3] 1).out, .done⟩ := by
  have hreach : ¬ Reach [.Composite 1 [2], .Composite 2 [2], .Primitive 3] 1 0 := by
    intro h
    rcases Relation.ReflTransGen.cases_head h with h | ⟨c, ⟨v, cs, hs, hc⟩, h⟩
    · cases h
    · simp at hs
      obtain ⟨_, rfl⟩ := hs
      simp at hc
      subst hc
      rcases Relation.ReflTransGen.cases_head h with h | ⟨c, ⟨v, cs, hs, _⟩, _⟩
      · cases h
      · simp at hs
  exact C8_attach_twice [.Composite 1 [2], .Composite 2 [2], .Primitive 3] 0 1 1 [2] 2
    (by decide) hreach (by decide) (by decide)

/-- C9: introducing a cycle is not rejected and makes the traversal diverge.
Attaching to a `Composite` at `b` a payload `p` from which `b` is reachable (`b`
itself, or an ancestor of `b`) returns and appends `p` like any other payload,
and afterwards `traverse` on `b` returns for no recursion budget (in a heap
without dangling pointers it runs out of budget every time).  For a lone
`Composite` attached to itself the traversal with budget `f` runs out of budget
after writing the value `f` times; for a `Composite` attached to its own child it
runs out of budget after writing the two values in turn, `f` integers in all. -/
theorem C9_cycle_makes_traverse_diverge :
    (∀ (s : Store) (b p : Nat) (v : Int) (cs : List Nat),
      s[b]? = some (.Composite v cs) → Reach s p b →
      ∃ t, accept s AddVisitor b p = some t ∧ t[b]? = some (.Composite v (cs ++ [p])) ∧
        (∀ f, (traverse f t b).status ≠ .done) ∧
        (WellFormed s → p < s.length → ∀ f, (traverse f t b).status = .outOfFuel)) ∧
    (∀ (v : Int) (f : Nat),
      accept [.Composite v []] AddVisitor 0 0 = some [.Composite v [0]] ∧
      traverse f [.Composite v [0]] 0 = ⟨List.replicate f v, .outOfFuel⟩) ∧
    (∀ (a c : Int) (f : Nat),
      accept [.Composite a [1], .Composite c []] AddVisitor 1 0 =
        some [.Composite a [1], .Composite c [0]] ∧
      traverse f [.Composite a [1], .Composite c [0]] 0 = ⟨alternate f a c, .outOfFuel⟩ ∧
      traverse f [.Composite a [1], .Composite c [0]] 1 = ⟨alternate f c a, .outOfFuel⟩) := by
  refine ⟨?_, ?_, ?_⟩
  · intro s b p v cs hB hreach
    have hnd : ∀ f, (traverse f (s.set b (.Composite v (cs ++ [p]))) b).status ≠ .done := by
      intro f
      apply not_done_of_cycle
      apply Relation.TransGen.head' ((child_set_iff s b p v cs hB b p).2 (Or.inr ⟨rfl, rfl⟩))
      exact Relation.ReflTransGen.mono
        (fun x y hxy => (child_set_iff s b p v cs hB x y).2 (Or.inl hxy)) hreach
    refine ⟨_, accept_composite s b p v cs hB, getElem?_set_self_of_some hB, hnd, ?_⟩
    intro hwf hp f
    have hb : b < (s.set b (.Composite v (cs ++ [p]))).length := by
      rw [List.length_set]
      exact lt_length_of_getElem? hB
    have hnf := traverse_ne_fault _ (wellFormed_set s b p v cs hB hp hwf) f b hb
    have hd := hnd f
    cases hst : (traverse f (s.set b (.Composite v (cs ++ [p]))) b).status with
    | done => exact absurd hst hd
    | outOfFuel => rfl
    | fault => exact absurd hst hnf
  · intro v f
    refine ⟨by simp [accept, Composite.accept, AddVisitor, Composite.add], ?_⟩
    induction f with
    | zero => rfl
    | succ f ih =>
      have h0 : ([.Composite v [0]] : Store)[0]? = some (.Composite v [0]) := rfl
      rw [traverse_succ_composite f h0]
      simp [forChildren, ih, Run.andThen, List.replicate_succ]
  · intro a c f
    refine ⟨by simp [accept, Composite.accept, AddVisitor, Composite.add], ?_⟩
    induction f with
    | zero => exact ⟨rfl, rfl⟩
    | succ f ih =>
      have h0 : ([.Composite a [1], .Composite c [0]] : Store)[0]? =
          some (.Composite a [1]) := rfl
      have h1 : ([.Composite a [1], .Composite c [0]] : Store)[1]? =
          some (.Composite c [0]) := rfl
      rw [traverse_succ_composite f h0, traverse_succ_composite f h1]
      simp [forChildren, ih.1, ih.2, Run.andThen, alternate]

theorem C9_cycle_makes_traverse_diverge_witness :
    Reach [.Composite 1 [1], .Composite 2 []] 0 1 ∧
    ∃ t, accept [.Composite 1 [1], .Composite 2 []] AddVisitor 1 0 = some t ∧
      t[1]? = some (.Composite 2 ([] ++ [0])) ∧
      ∀ f, (traverse f t 1).status = .outOfFuel := by
  have hreach : Reach [.Composite 1 [1], .Composite 2 []] 0 1 :=
    Relation.ReflTransGen.single ⟨1, [1], rfl, by simp⟩
  have hwf := (wellFormed_acyclic_of_done [.Composite 1 [1], .Composite 2 []] 2 (by decide)).1
  obtain ⟨t, h1, h2, _, h4⟩ :=
    C9_cycle_makes_traverse_diverge.1 _ 1 0 2 [] (by decide) hreach
  exact ⟨hreach, t, h1, h2, h4 hwf (by decide)⟩

/-- C10: an attach changes one child sequence only.  A call
`r->accept(addVisitor, p)` on an object `r` returns; afterwards the heap has the
same number of objects, every object other than `r` is what it was (its value and
its children), no object has changed class or value, and when `r` is a
`Primitive` nothing has changed at all.  The same holds for a direct call of
`Composite::add`.  So an object that differs after the call is the receiver, and
the receiver is a `Composite`. -/
theorem C10_attach_frame (s : Store) (r p : Nat) (x : Component) (hr : s[r]? = some x) :
    (∃ t, accept s AddVisitor r p = some t ∧ t.length = s.length ∧
      (∀ n : Nat, n ≠ r → t[n]? = s[n]?) ∧
      (∀ n : Nat, (t[n]?).map Component.isComposite = (s[n]?).map Component.isComposite) ∧
      (∀ n : Nat, (t[n]?).map Component.value = (s[n]?).map Component.value) ∧
      (x.isComposite = false → t = s) ∧
      (∀ n : Nat, t[n]? ≠ s[n]? → n = r ∧ x.isComposite = true)) ∧
    (∀ u : Store, Composite.add s r p = some u → u.length = s.length ∧
      (∀ n : Nat, n ≠ r → u[n]? = s[n]?) ∧
      (∀ n : Nat, (u[n]?).map Component.isComposite = (s[n]?).map Component.isComposite)) := by
  have hset : ∀ v cs, s[r]? = some (.Composite v cs) →
      (s.set r (.Composite v (cs ++ [p]))).length = s.length ∧
      (∀ n : Nat, n ≠ r → (s.set r (.Composite v (cs ++ [p])))[n]? = s[n]?) ∧
      (∀ n : Nat, ((s.set r (.Composite v (cs ++ [p])))[n]?).map Component.isComposite =
        (s[n]?).map Component.isComposite) ∧
      (∀ n : Nat, ((s.set r (.Composite v (cs ++ [p])))[n]?).map Component.value =
        (s[n]?).map Component.value) := by
    intro v cs hB
    refine ⟨List.length_set _ _ _, fun n hn => getElem?_set_of_ne _ hn, ?_, ?_⟩
    · intro n
      by_cases hn : n = r
      · subst hn
        rw [getElem?_set_self_of_some hB, hB]
        rfl
      · rw [getElem?_set_of_ne _ hn]
    · intro n
      by_cases hn : n = r
      · subst hn
        rw [getElem?_set_self_of_some hB, hB]
        rfl
      · rw [getElem?_set_of_ne _ hn]
  constructor
  · cases x with
    | Primitive v =>
      exact ⟨s, accept_primitive s r p v hr, rfl, fun _ _ => rfl, fun _ => rfl, fun _ => rfl,
        fun _ => rfl, fun n hn => absurd rfl hn⟩
    | Composite v cs =>
      obtain ⟨h1, h2, h3, h4⟩ := hset v cs hr
      refine ⟨_, accept_composite s r p v cs hr, h1, h2, h3, h4, ?_, ?_⟩
      · intro h
        cases h
      · intro n hn
        refine ⟨?_, rfl⟩
        by_contra hne
        exact hn (h2 n hne)
  · intro u hu
    obtain ⟨v, cs, hB, rfl⟩ := add_cases s u r p hu
    obtain ⟨h1, h2, h3, _⟩ := hset v cs hB
    exact ⟨h1, h2, h3⟩

theorem C10_attach_frame_witness :
    ([.Composite 1 [1], .Composite 2 [2], .Primitive 3] : Store)[0]? =
      some (.Composite 1 [1]) ∧
    ∃ t, accept [.Composite 1 [1], .Composite 2 [2], .Primitive 3] AddVisitor 0 1 = some t ∧
      t.length = 3 ∧ t[1]? = some (.Composite 2 [2]) ∧ t[2]? = some (.Primitive 3) := by
  obtain ⟨⟨t, h1, h2, h3, _⟩, _⟩ :=
    C10_attach_frame [.Composite 1 [1], .Composite 2 [2], .Primitive 3] 0 1 _ rfl
  exact ⟨rfl, t, h1, h2, h3 1 (by decide), h3 2 (by decide)⟩

/-- C11: traversal is compatible with attaching.  In a heap without dangling
pointers and without cycles, for a `Composite` at `b` and an existing payload `p`
from which `b` is not reachable, `b->accept(addVisitor, p)` returns and
afterwards `traverse` on `b` returns and writes what it wrote before the call
followed by the output of `traverse` on `p`, while `traverse` on `p` is the same
before and after the call (for every recursion budget of at least the number of
objects). -/
theorem C11_traverse_after_attach (s : Store) (hwf : WellFormed s) (hac : Acyclic s)
    (b p : Nat) (v : Int) (cs : List Nat) (hB : s[b]? = some (.Composite v cs))
    (hp : p < s.length) (hreach : ¬ Reach s p b) (f : Nat) (hf : s.length ≤ f) :
    ∃ t, accept s AddVisitor b p = some t ∧
      (traverse f s b).status = .done ∧ (traverse f s p).status = .done ∧
      traverse f t b = ⟨(traverse f s b).out ++ (traverse f s p).out, .done⟩ ∧
      traverse f t p = traverse f s p := by
  have hb : b < s.length := lt_length_of_getElem? hB
  have hdB := done_of_acyclic s hwf hac f b hb hf
  have hdP := done_of_acyclic s hwf hac f p hp hf
  have hwf2 := wellFormed_set s b p v cs hB hp hwf
  have hac2 := acyclic_set s b p v cs hB hreach hac
  have hdB2 : (traverse f (s.set b (.Composite v (cs ++ [p]))) b).status = .done :=
    done_of_acyclic _ hwf2 hac2 f b (by rw [List.length_set]; exact hb)
      (by rw [List.length_set]; exact hf)
  refine ⟨_, accept_composite s b p v cs hB, hdB, hdP, ?_, ?_⟩
  · rw [← traverse_succ_of_done _ f b hdB2]
    exact traverse_after_attach s b p v cs f hB hreach hdB hdP f (Nat.le_refl f)
  · exact traverse_set_of_not_reach s b _ f p hreach

theorem C11_traverse_after_attach_witness :
    ∃ t, accept [.Composite 1 [2], .Composite 2 [2], .Primitive 3] AddVisitor 0 1 = some t ∧
      (traverse 3 [.Composite 1 [2], .Composite 2 [2], .Primitive 3] 0).status = .done ∧
      (traverse 3 [.Composite 1 [2], .Composite 2 [2], .Primitive 3] 1).status = .done ∧
      traverse 3 t 0 =
        ⟨(traverse 3 [.Composite 1 [2], .Composite 2 [2], .Primitive 3] 0).out ++
          (traverse 3 [.Composite 1 [2], .Composite 2 [2], .Primitive 3] 1).out, .done⟩ ∧
      traverse 3 t 1 = traverse 3 [.Composite 1 [2], .Composite 2 [2], .Primitive 3] 1 := by
  have h := wellFormed_acyclic_of_done
    [.Composite 1 [2], .Composite 2 [2], .Primitive 3] 3 (by decide)
  have hreach : ¬ Reach [.Composite 1 [2], .Composite 2 [2], .Primitive 3] 1 0 := by
    intro hr
    rcases Relation.ReflTransGen.cases_head hr with hr | ⟨c, ⟨v, cs, hs, hc⟩, hr⟩
    · cases hr
    · simp at hs
      obtain ⟨_, rfl⟩ := hs
      simp at hc
      subst hc
      rcases Relation.ReflTransGen.cases_head hr with hr | ⟨c, ⟨v, cs, hs, _⟩, _⟩
      · cases hr
      · simp at hs
  exact C11_traverse_after_attach _ h.1 h.2 0 1 1 [2] (by decide) (by decide) hreach 3
    (by decide)

/-- C12: `traverse` is read-only.  Run as a transformer of the program state, a
call of `traverse` returns the heap it was given, whatever the object, the state
and the budgets, also when it does not return.  In a heap without dangling
pointers and without cycles the call returns (for a recursion budget of at least
the number of objects and a loop budget above the length of every child vector),
every object has the same value and the same children afterwards, and a second
call on the same object returns as well and appends to `cout` the same integers
as the first. -/
theorem C12_traverse_is_read_only (w : World) (hwf : WellFormed w.heap)
    (hac : Acyclic w.heap) (p : Nat) (hp : p < w.heap.length) (f : Nat)
    (hf : w.heap.length ≤ f) (k : Nat)
    (hk : ∀ (q : Nat) (v : Int) (cs : List Nat),
      w.heap[q]? = some (Component.Composite v cs) → cs.length < k) :
    (∀ (k' f' : Nat) (u : World) (q : Nat), (traverseIn k' f' u q).1.heap = u.heap) ∧
    ∃ w₁ w₂ out, traverseIn k f w p = (w₁, .done) ∧
      w₁.heap = w.heap ∧ (∀ n : Nat, w₁.heap[n]? = w.heap[n]?) ∧
      w₁.cout = w.cout ++ out ∧
      traverseIn k f w₁ p = (w₂, .done) ∧
      w₂.heap = w.heap ∧ w₂.cout = w₁.cout ++ out ∧
      out = (traverse f w.heap p).out := by
  have hd := done_of_acyclic w.heap hwf hac f p hp hf
  have h1 := traverseIn_eq k f w p hk
  have h2 := traverseIn_eq k f ⟨w.heap, w.cout ++ (traverse f w.heap p).out⟩ p hk
  rw [hd] at h1 h2
  exact ⟨fun k' f' u q => traverseIn_heap k' f' u q,
    _, _, (traverse f w.heap p).out, h1, rfl, fun _ => rfl, rfl, h2, rfl, rfl, rfl⟩

theorem C12_traverse_is_read_only_witness :
    ∃ w₁ w₂ out,
      traverseIn 3 3 ⟨[.Composite 1 [1, 2], .Composite 2 [2], .Primitive 3], [9]⟩ 0 =
        (w₁, .done) ∧
      w₁.heap = [.Composite 1 [1, 2], .Composite 2 [2], .Primitive 3] ∧
      w₁.cout = [9] ++ out ∧
      traverseIn 3 3 w₁ 0 = (w₂, .done) ∧
      w₂.heap = [.Composite 1 [1, 2], .Composite 2 [2], .Primitive 3] ∧
      w₂.cout = w₁.cout ++ out ∧
      out = [1, 2, 3, 3] := by
  have h := wellFormed_acyclic_of_done
    [.Composite 1 [1, 2], .Composite 2 [2], .Primitive 3] 3 (by decide)
  have hk : ∀ (q : Nat) (v : Int) (cs : List Nat),
      ([.Composite 1 [1, 2], .Composite 2 [2], .Primitive 3] : Store)[q]? =
        some (Component.Composite v cs) → cs.length < 3 := by
    intro q v cs hq
    rcases q with _ | _ | _ | q
    · simp at hq
      obtain ⟨_, rfl⟩ := hq
      decide
    · simp at hq
      obtain ⟨_, rfl⟩ := hq
      decide
    · simp at hq
    · simp at hq
  obtain ⟨_, w₁, w₂, out, h1, h2, _, h3, h4, h5, h6, h7⟩ :=
    C12_traverse_is_read_only ⟨[.Composite 1 [1, 2], .Composite 2 [2], .Primitive 3], [9]⟩
      h.1 h.2 0 (by decide) 3 (by decide) 3 hk
  exact ⟨w₁, w₂, out, h1, h2, h3, h4, h5, h6, h7.trans (by decide)⟩

/-- C13: in a heap without dangling pointers and without cycles, the number of
integers `traverse` writes on an object is the number of nodes of the tree
unfolded from it (a node counted once per path): 1 for a `Primitive` and for a
`Composite` without children, 1 plus the sum of the children's counts for a
`Composite`.  Every integer written is the value of an object reachable from the
start, and the value of every reachable object is written. -/
theorem C13_output_counts_unfolded_tree (s : Store) (hwf : WellFormed s) (hac : Acyclic s)
    (p : Nat) (hp : p < s.length) (f : Nat) (hf : s.length ≤ f) :
    (traverse f s p).out.length = unfoldedSize f s p ∧
    (∀ v, s[p]? = some (.Primitive v) → (traverse f s p).out.length = 1) ∧
    (∀ v, s[p]? = some (.Composite v []) → (traverse f s p).out.length = 1) ∧
    (∀ v cs, s[p]? = some (.Composite v cs) →
      (traverse f s p).out.length =
        1 + (cs.map (fun c => (traverse f s c).out.length)).sum ∧
      unfoldedSize f s p = 1 + (cs.map (fun c => unfoldedSize f s c)).sum) ∧
    (∀ x ∈ (traverse f s p).out, ∃ q y, Reach s p q ∧ s[q]? = some y ∧ y.value = x) ∧
    (∀ q y, Reach s p q → s[q]? = some y → y.value ∈ (traverse f s p).out) := by
  have hd := done_of_acyclic s hwf hac f p hp hf
  have hlen := length_out_of_done s f p hd
  have hcomp : ∀ v cs, s[p]? = some (.Composite v cs) →
      (traverse f s p).out.length =
        1 + (cs.map (fun c => (traverse f s c).out.length)).sum := by
    intro v cs hs
    rw [out_composite_of_done s f p v cs hs hd]
    simp [List.length_flatten, Nat.add_comm, Function.comp_def]
  refine ⟨hlen, ?_, ?_, ?_, ?_, ?_⟩
  · intro v hs
    cases f with
    | zero => simp [traverse_zero] at hd
    | succ g => simp [traverse_succ_primitive g hs]
  · intro v hs
    simpa using hcomp v [] hs
  · intro v cs hs
    refine ⟨hcomp v cs hs, ?_⟩
    rw [← hlen, hcomp v cs hs]
    congr 2
    apply List.map_congr_left
    intro c hc
    exact length_out_of_done s f c
      (done_of_acyclic s hwf hac f c (hwf p c (child_of_mem hs hc)) hf)
  · intro x hx
    exact (mem_out_iff_of_done s f p hd x).1 hx
  · intro q y hq hy
    exact (mem_out_iff_of_done s f p hd y.value).2 ⟨q, y, hq, hy, rfl⟩

theorem C13_output_counts_unfolded_tree_witness :
    (traverse 3 [.Composite 1 [1, 2], .Composite 2 [2], .Primitive 3] 0).out.length =
      unfoldedSize 3 [.Composite 1 [1, 2], .Composite 2 [2], .Primitive 3] 0 ∧
    unfoldedSize 3 [.Composite 1 [1, 2], .Composite 2 [2], .Primitive 3] 0 = 4 := by
  have h := wellFormed_acyclic_of_done
    [.Composite 1 [1, 2], .Composite 2 [2], .Primitive 3] 3 (by decide)
  exact ⟨(C13_output_counts_unfolded_tree _ h.1 h.2 0 (by decide) 3 (by decide)).1,
    by decide⟩

end Visitor3

namespace Template2

/-- C14: the template method `Base::execute` runs the five steps in the order
`a`, `ph1`, `c`, `ph2`, `e` for every derived class.  When the placeholders of the
class write `w₁` and `w₂`, `execute` writes `"a  "`, then `w₁`, then `"c  "`, then
`w₂`, then `"e  "`; when each placeholder writes one string, `a`, `c` and `e` are
the 1st, 3rd and 5th strings written.  On `One` it writes `a  b  c  d  e  ` and on
`Two` it writes `a  2  c  4  e  `. -/
theorem C14_execute_runs_steps_in_order (d : Base) (w₁ w₂ : List String)
    (h₁ : ∀ o, d.ph1 o = o ++ w₁) (h₂ : ∀ o, d.ph2 o = o ++ w₂) (cout : List String) :
    d.execute cout = Base.e (d.ph2 (Base.c (d.ph1 (Base.a cout)))) ∧
    d.execute cout = cout ++ ["a  "] ++ w₁ ++ ["c  "] ++ w₂ ++ ["e  "] ∧
    (∀ x y, w₁ = [x] → w₂ = [y] → d.execute [] = ["a  ", x, "c  ", y, "e  "]) ∧
    One.execute [] = ["a  ", "b  ", "c  ", "d  ", "e  "] ∧
    Two.execute [] = ["a  ", "2  ", "c  ", "4  ", "e  "] ∧
    String.join (One.execute []) = "a  b  c  d  e  " ∧
    String.join (Two.execute []) = "a  2  c  4  e  " := by
  have hexec : ∀ o, d.execute o = o ++ ["a  "] ++ w₁ ++ ["c  "] ++ w₂ ++ ["e  "] := by
    intro o
    simp [Base.execute, Base.a, Base.c, Base.e, h₁, h₂]
  refine ⟨rfl, hexec cout, ?_, by decide, by decide, by decide, by decide⟩
  intro x y hx hy
  rw [hexec, hx, hy]
  rfl

theorem C14_execute_runs_steps_in_order_witness :
    One.execute [] = Base.e (One.ph2 (Base.c (One.ph1 (Base.a [])))) ∧
    One.execute [] = [] ++ ["a  "] ++ ["b  "] ++ ["c  "] ++ ["d  "] ++ ["e  "] ∧
    main = ["a  ", "b  ", "c  ", "d  ", "e  ", "\n", "a  ", "2  ", "c  ", "4  ", "e  ", "\n"] := by
  have h := C14_execute_runs_steps_in_order One ["b  "] ["d  "] (fun _ => rfl) (fun _ => rfl) []
  exact ⟨h.1, h.2.1, by decide⟩

end Template2
